import Mathlib

/-!
Verification development for the nugetpacman dependency-graph engine
(`src/parser.py`).  The Python source is shallowly embedded: the network
(NuGet registry) is modelled as an explicit `Registry` oracle, and the pure
control flow of `version_to_key`, `get_package_versions`,
`get_package_dependencies`, `build_dependency_graph_dfs` and
`build_reverse_dependency_graph_dfs` is translated function by function.
Python exceptions are modelled with `Except`; the builders' `except` handlers
are modelled by catching the error value and recording it in a `caught` log,
exactly where the source catches and prints.
-/

/-- Python `str.lower()` (ASCII case mapping, which covers every string the
claims exercise). -/
def lowerStr (s : String) : String := String.mk (s.data.map Char.toLower)

/-- Python's substring test `sub in s` on character lists: `[]` is contained
in everything, matching Python where the empty string is a substring of any
string. -/
def subIn (sub : List Char) : List Char → Bool
  | [] => sub.isEmpty
  | c :: t => sub.isPrefixOf (c :: t) || subIn sub t

/-- Python `str in str` containment (`exclude_substring in dep_id_lower`). -/
def strIn (sub s : String) : Bool := subIn sub.data s.data

/-- Comparison of two machine integers, as Python compares `int` tuple
components. -/
def natCmp (a b : Nat) : Ordering :=
  if a < b then Ordering.lt else if b < a then Ordering.gt else Ordering.eq

/-- Python's lexicographic tuple/list comparison, parameterised by the
element comparison: a strict prefix is smaller. -/
def lexCmp (c : α → α → Ordering) : List α → List α → Ordering
  | [], [] => Ordering.eq
  | [], _ :: _ => Ordering.lt
  | _ :: _, [] => Ordering.gt
  | a :: as, b :: bs =>
    match c a b with
    | Ordering.eq => lexCmp c as bs
    | o => o

/-- Python string comparison: lexicographic over code points. -/
def charCmp (a b : Char) : Ordering := natCmp a.toNat b.toNat

/-- Python `str` comparison. -/
def strCmp (a b : String) : Ordering := lexCmp charCmp a.data b.data

/-- One dot-separated pre-release component of `version_to_key`: the source
tags numeric components `(0, int(p))` and alphanumeric ones `(1, p)`, so a
numeric component always sorts below an alphanumeric one. -/
inductive PreSeg where
  | num (n : Nat)
  | alpha (s : String)
deriving DecidableEq, Repr

/-- Comparison of tagged pre-release components, as Python compares the
source's `(0, int)` / `(1, str)` pairs. -/
def preSegCmp : PreSeg → PreSeg → Ordering
  | PreSeg.num a, PreSeg.num b => natCmp a b
  | PreSeg.num _, PreSeg.alpha _ => Ordering.lt
  | PreSeg.alpha _, PreSeg.num _ => Ordering.gt
  | PreSeg.alpha a, PreSeg.alpha b => strCmp a b

/-- The `pre_key` tuple of `version_to_key`: `none` models `(1,)` (no
pre-release, sorts above), `some parts` models `(0,) + parts`. -/
def preCmp : Option (List PreSeg) → Option (List PreSeg) → Ordering
  | none, none => Ordering.eq
  | none, some _ => Ordering.gt
  | some _, none => Ordering.lt
  | some a, some b => lexCmp preSegCmp a b

/-- The sortable key returned by `version_to_key`:
`(core_parts, pre_key, build_key)`. -/
structure VersionKey where
  core : List Nat
  pre : Option (List PreSeg)
  build : List String
deriving DecidableEq, Repr

/-- Python's comparison of the 3-tuples returned by `version_to_key`. -/
def vkCmp (a b : VersionKey) : Ordering :=
  match lexCmp natCmp a.core b.core with
  | Ordering.eq =>
    match preCmp a.pre b.pre with
    | Ordering.eq => lexCmp strCmp a.build b.build
    | o => o
  | o => o

/-- Numeral parsing `int(x)` for a digit run. -/
def digitsToNat (ds : List Char) : Nat :=
  ds.foldl (fun n c => n * 10 + (c.toNat - 48)) 0

/-- Python `"s".split(".")` on a character list: `""` yields `[""]`, and
consecutive dots yield empty components. -/
def splitDot : List Char → List (List Char)
  | [] => [[]]
  | c :: cs =>
    if c = '.' then [] :: splitDot cs
    else
      match splitDot cs with
      | g :: gs => (c :: g) :: gs
      | [] => [[c]]

/-- One pre-release component: `p.isdigit()` (nonempty, all digits) gives
`(0, int(p))`, otherwise `(1, p)`. -/
def toPreSeg (l : List Char) : PreSeg :=
  if l ≠ [] ∧ l.all Char.isDigit then PreSeg.num (digitsToNat l)
  else PreSeg.alpha (String.mk l)

/-- The loop of the regex `(\d+(?:\.\d+)*)`: after the leading digit run,
greedily consume `.digits` groups.  The fuel argument is the remaining input
length, ample since every iteration consumes at least two characters. -/
def coreLoop : Nat → List Char → List Nat → List Nat × List Char
  | 0, cs, acc => (acc, cs)
  | fuel + 1, cs, acc =>
    match cs with
    | '.' :: r =>
      let g := r.takeWhile Char.isDigit
      if g = [] then (acc, cs)
      else coreLoop fuel (r.dropWhile Char.isDigit) (acc ++ [digitsToNat g])
    | _ => (acc, cs)

/-- Python `str.strip()`: drop leading and trailing whitespace. -/
def stripChars (cs : List Char) : List Char :=
  ((cs.dropWhile Char.isWhitespace).reverse.dropWhile Char.isWhitespace).reverse

/-- The key `((), (0,), ())` returned for `None` or unparseable input. -/
def lowestKey : VersionKey := ⟨[], some [], []⟩

/-- `version_to_key(v)` from src/parser.py: lowercase and strip the string,
match it against `^(\d+(?:\.\d+)*)(?:-([^+]+))?(?:\+(.*))?$`, and build the
`(core_parts, pre_key, build_key)` tuple; no match yields the lowest key.
(The regex is anchored, so after the greedily-parsed core the remainder must
be empty or start with a dash or plus; greedy matching without backtracking
is equivalent here because any backtracked remainder starts with a digit or
dot, which the tail of the pattern can never match.) -/
def version_to_key (v : String) : VersionKey :=
  let cs := stripChars (lowerStr v).data
  match cs with
  | [] => lowestKey
  | c :: _ =>
    if c.isDigit then
      let g := cs.takeWhile Char.isDigit
      let rest0 := cs.dropWhile Char.isDigit
      let p := coreLoop rest0.length rest0 [digitsToNat g]
      match p.2 with
      | [] => ⟨p.1, none, []⟩
      | '-' :: r =>
        let pre := r.takeWhile (fun c => c ≠ '+')
        let r2 := r.dropWhile (fun c => c ≠ '+')
        if pre = [] then lowestKey
        else
          match r2 with
          | [] => ⟨p.1, some ((splitDot pre).map toPreSeg), []⟩
          | _ :: b => ⟨p.1, some ((splitDot pre).map toPreSeg), (splitDot b).map String.mk⟩
      | '+' :: b => ⟨p.1, none, (splitDot b).map String.mk⟩
      | _ => lowestKey
    else lowestKey

/-- Python exceptions that the source raises or propagates: `ValueError`
(configuration errors such as a missing service-index resource) and
`requests.RequestException` (transport failures). -/
inductive PyErr where
  | valueError (msg : String)
  | requestError
deriving DecidableEq, Repr

/-- A raw entry of a `dependencies` array in a registration page:
`dep.get("id")` / `dep.get("range", "*")`. -/
structure DepEntry where
  id : Option String
  range : Option String
deriving DecidableEq, Repr

/-- A raw entry of `dependencyGroups`: `group.get("targetFramework", "Any")`
and `group.get("dependencies", [])`. -/
structure DepGroup where
  targetFramework : Option String
  dependencies : List DepEntry
deriving DecidableEq, Repr

/-- A flattened dependency as built by `get_package_dependencies`:
`{"framework": ..., "id": ..., "range": ...}`. -/
structure Dep where
  framework : String
  id : String
  range : String
deriving DecidableEq, Repr

/-- The NuGet registry, modelled as a data oracle for the network calls the
source makes: the service index `resources` array, the (already page
flattened) version strings listed for a lowercased package id, the
registration data for a lowercased (id, version), and the dependents API.
`Except Unit` marks a transport failure of the corresponding request. -/
structure Registry where
  resources : List (String × String)
  rawVersions : String → Except Unit (List String)
  rawDeps : String → String → Except Unit (List DepGroup)
  rawDependents : String → Nat → Nat → Except Unit (List String)

/-- `find_resource_url(service_index, resource_type)`: scan the resources for
a matching `@type`, returning its `@id`; raise `ValueError` when absent. -/
def find_resource_url (resources : List (String × String)) (rtype : String) :
    Except PyErr String :=
  match resources.find? (fun r => r.1 == rtype) with
  | some r => Except.ok r.2
  | none => Except.error (PyErr.valueError ("Resource type " ++ rtype ++ " not found."))

/-- `sorted(..., key=version_to_key, reverse=True)`: descending and total on
keys (ties between distinct strings with equal keys come out in an
unspecified order in Python, since they pass through `set`). -/
def keyGe (a b : String) : Prop :=
  vkCmp (version_to_key a) (version_to_key b) ≠ Ordering.lt

instance : DecidableRel keyGe := fun a b =>
  inferInstanceAs (Decidable (vkCmp (version_to_key a) (version_to_key b) ≠ Ordering.lt))

/-- Python `list(set(versions))` modelled as first-occurrence deduplication
(the set's iteration order is unspecified; any enumeration of the set is a
faithful refinement). -/
def dedupAux : List String → List String → List String
  | [], _ => []
  | v :: vs, seenIds =>
    if seenIds.contains v then dedupAux vs seenIds else v :: dedupAux vs (v :: seenIds)

def dedupFirst (l : List String) : List String := dedupAux l []

def sortVersionsDesc (l : List String) : List String := List.insertionSort keyGe l

/-- `get_package_versions(package_id)`: service discovery (ValueError
propagates), fetch of the registration index (transport failure propagates as
a RequestException, there is no `try` in this function), then
`sorted(list(set(versions)), key=version_to_key, reverse=True)`.
Page-level fetch failures are caught inside the source's page loop and only
drop versions, so they are part of the `rawVersions` oracle value. -/
def get_package_versions (reg : Registry) (package_id : String) :
    Except PyErr (List String) :=
  match find_resource_url reg.resources "RegistrationsBaseUrl" with
  | Except.error e => Except.error e
  | Except.ok _ =>
    match reg.rawVersions (lowerStr package_id) with
    | Except.error _ => Except.error PyErr.requestError
    | Except.ok vs => Except.ok (sortVersionsDesc (dedupFirst vs))

/-- The flattening loop at the end of `get_package_dependencies`: each group
contributes its dependencies tagged with the group's target framework
(default `"Any"`); entries with a falsy id (`None` or `""`) are skipped;
a missing range defaults to `"*"`. -/
def flattenGroups : List DepGroup → List Dep
  | [] => []
  | g :: gs =>
    (g.dependencies.filterMap (fun d =>
      match d.id with
      | none => none
      | some i => if i = "" then none
                  else some ⟨g.targetFramework.getD "Any", i, d.range.getD "*"⟩))
      ++ flattenGroups gs

/-- `get_package_dependencies(package_id, version)`: service discovery runs
BEFORE the `try` block, so a configuration `ValueError` propagates to the
caller; everything inside the `try` that raises a RequestException is caught
and turned into `[]`; a successful response is flattened into `Dep` records.
(The leaf/page/catalog fallback chain is part of the `rawDeps` oracle.) -/
def get_package_dependencies (reg : Registry) (package_id version : String) :
    Except PyErr (List Dep) :=
  match find_resource_url reg.resources "RegistrationsBaseUrl" with
  | Except.error e => Except.error e
  | Except.ok _ =>
    match reg.rawDeps (lowerStr package_id) (lowerStr version) with
    | Except.error _ => Except.ok []
    | Except.ok gs => Except.ok (flattenGroups gs)

/-- The traversal state of `build_dependency_graph_dfs`, together with logs
mirroring the source's observable actions: `fetched` records each
`get_package_dependencies` call (the "Анализ" print), `pushed` records each
`stack.append` for a dependency, `seen` records the root and every dependency
id in processing order, and `caught` records each exception swallowed by the
loop's `except` handlers. -/
structure BuildState where
  stack : List (String × String)
  graph : List (String × List String)
  visited : List String
  fetched : List (String × String)
  pushed : List (String × String)
  seen : List String
  caught : List String
deriving DecidableEq, Repr

/-- `current_id not in graph` (exact, case-sensitive dict key test). -/
def hasKey (g : List (String × List String)) (k : String) : Bool :=
  g.any (fun kv => kv.1 == k)

/-- `graph[k].add(v)`: dict entries are insertion ordered and the value set
is modelled as an insertion-ordered duplicate-free list. -/
def addEdge (g : List (String × List String)) (k v : String) :
    List (String × List String) :=
  g.map (fun kv =>
    if kv.1 == k then (kv.1, if kv.2.contains v then kv.2 else kv.2 ++ [v]) else kv)

/-- The framework filter predicate:
`d["framework"].lower() == framework.lower() or d["framework"] == "Any"`. -/
def fwKeep (framework : String) (d : Dep) : Bool :=
  lowerStr d.framework == lowerStr framework || d.framework == "Any"

/-- The `for dep in deps_to_process` loop of `build_dependency_graph_dfs`.
`exL` is the already-lowercased, nonempty exclusion substring (`none` models
both `None` and the falsy `""`).  A `RequestException` raised by
`get_package_versions` aborts the remaining iterations and is recorded in
`caught`, exactly like the source's loop-level handler. -/
def processDeps (reg : Registry) (exL : Option String) (curId : String) :
    List Dep → BuildState → BuildState
  | [], st => st
  | d :: rest, st =>
    let st1 : BuildState := { st with seen := st.seen ++ [d.id] }
    let dLow := lowerStr d.id
    if (match exL with | some ex => strIn ex dLow | none => false) then
      processDeps reg exL curId rest st1
    else
      let st2 : BuildState := { st1 with graph := addEdge st1.graph curId d.id }
      if st2.visited.contains dLow then processDeps reg exL curId rest st2
      else
        match get_package_versions reg d.id with
        | Except.error _ =>
          { st2 with caught := st2.caught ++ ["error processing " ++ curId] }
        | Except.ok [] => processDeps reg exL curId rest st2
        | Except.ok (v :: _) =>
          processDeps reg exL curId rest
            { st2 with stack := (d.id, v) :: st2.stack,
                       pushed := st2.pushed ++ [(d.id, v)] }

/-- One iteration of the `while stack` loop after the pop: the visited gate,
visited marking, key insertion, dependency fetch (exceptions recorded in
`caught`, like the loop's handlers), framework filtering, and the dependency
loop. -/
def stepNode (reg : Registry) (framework exL : Option String) (st : BuildState)
    (cur : String × String) : BuildState :=
  if st.visited.contains (lowerStr cur.1) then st
  else
    let st1 : BuildState := { st with visited := st.visited ++ [lowerStr cur.1] }
    let st2 : BuildState :=
      { st1 with graph := if hasKey st1.graph cur.1 then st1.graph
                          else st1.graph ++ [(cur.1, [])] }
    let st3 : BuildState := { st2 with fetched := st2.fetched ++ [cur] }
    match get_package_dependencies reg cur.1 cur.2 with
    | Except.error _ => { st3 with caught := st3.caught ++ ["error processing " ++ cur.1] }
    | Except.ok direct =>
      let deps := match framework with
        | some f => direct.filter (fwKeep f)
        | none => direct
      processDeps reg exL cur.1 deps st3

/-- The `while stack` loop, fueled: `none` only when the fuel runs out with a
nonempty stack, so a `some` result certifies termination of the source loop
on that input.  The deque is popped from the right; the state's stack keeps
its top at the head, so a push is a cons and the pop takes the head. -/
def buildLoop (reg : Registry) (framework exL : Option String) :
    Nat → BuildState → Option BuildState
  | 0, st => match st.stack with | [] => some st | _ :: _ => none
  | fuel + 1, st =>
    match st.stack with
    | [] => some st
    | cur :: rest =>
      buildLoop reg framework exL fuel (stepNode reg framework exL { st with stack := rest } cur)

def initState (root rootVer : String) : BuildState :=
  ⟨[(root, rootVer)], [], [], [], [], [root], []⟩

def emptyBuildState : BuildState := ⟨[], [], [], [], [], [], []⟩

/-- `build_dependency_graph_dfs(start_package, start_version, framework,
exclude_substring)`: the `if exclude_substring:` truthiness guard (so `None`
and `""` both skip the root-exclusion check and disable filtering), the
root-exclusion short-circuit returning `{}` before any registry access, then
the traversal loop. -/
def build_dependency_graph_dfs (reg : Registry) (start_package start_version : String)
    (framework exclude_substring : Option String) (fuel : Nat) : Option BuildState :=
  match exclude_substring with
  | some s =>
    if s = "" then buildLoop reg framework none fuel (initState start_package start_version)
    else if strIn (lowerStr s) (lowerStr start_package) then some emptyBuildState
    else buildLoop reg framework (some (lowerStr s)) fuel (initState start_package start_version)
  | none => buildLoop reg framework none fuel (initState start_package start_version)

/-- `get_reverse_dependencies(package_id, skip, take)`: the id is passed
case-sensitively; a transport failure is caught inside the function and
yields `[]`. -/
def get_reverse_dependencies (reg : Registry) (package_id : String) (skip tk : Nat) :
    List String :=
  match reg.rawDependents package_id skip tk with
  | Except.error _ => []
  | Except.ok l => l

/-- Traversal state of `build_reverse_dependency_graph_dfs`, with the same
kind of logs as the forward builder. -/
structure RevState where
  stack : List String
  graph : List (String × List String)
  visited : List String
  fetched : List String
  caught : List String
deriving DecidableEq, Repr

/-- The `for dep_id in direct_dependents` loop of the reverse builder. -/
def revProcess (exL : Option String) (curId : String) :
    List String → RevState → RevState
  | [], st => st
  | depId :: rest, st =>
    if (match exL with | some ex => strIn ex (lowerStr depId) | none => false) then
      revProcess exL curId rest st
    else
      let st2 : RevState := { st with graph := addEdge st.graph curId depId }
      if st2.visited.contains (lowerStr depId) then revProcess exL curId rest st2
      else revProcess exL curId rest { st2 with stack := depId :: st2.stack }

/-- One iteration of the reverse builder's `while stack` loop. -/
def revStep (reg : Registry) (exL : Option String) (maxDeps : Nat) (st : RevState)
    (cur : String) : RevState :=
  if st.visited.contains (lowerStr cur) then st
  else
    let st1 : RevState := { st with visited := st.visited ++ [lowerStr cur] }
    let st2 : RevState :=
      { st1 with graph := if hasKey st1.graph cur then st1.graph
                          else st1.graph ++ [(cur, [])] }
    let st3 : RevState := { st2 with fetched := st2.fetched ++ [cur] }
    revProcess exL cur (get_reverse_dependencies reg cur 0 maxDeps) st3

def revLoop (reg : Registry) (exL : Option String) (maxDeps : Nat) :
    Nat → RevState → Option RevState
  | 0, st => match st.stack with | [] => some st | _ :: _ => none
  | fuel + 1, st =>
    match st.stack with
    | [] => some st
    | cur :: rest => revLoop reg exL maxDeps fuel (revStep reg exL maxDeps { st with stack := rest } cur)

def emptyRevState : RevState := ⟨[], [], [], [], []⟩

/-- `build_reverse_dependency_graph_dfs(start_package, exclude_substring,
max_dependents_per_package)`: identical truthiness guard and root-exclusion
short-circuit as the forward builder, then the dependents traversal. -/
def build_reverse_dependency_graph_dfs (reg : Registry) (start_package : String)
    (exclude_substring : Option String) (maxDeps fuel : Nat) : Option RevState :=
  match exclude_substring with
  | some s =>
    if s = "" then revLoop reg none maxDeps fuel ⟨[start_package], [], [], [], []⟩
    else if strIn (lowerStr s) (lowerStr start_package) then some emptyRevState
    else revLoop reg (some (lowerStr s)) maxDeps fuel ⟨[start_package], [], [], [], []⟩
  | none => revLoop reg none maxDeps fuel ⟨[start_package], [], [], [], []⟩

/-- One transition of the forward builder generalised over the pop position:
pop the stack element at index `i` and process it with `stepNode`.  Index 0
is the source's own deque-pop order. -/
def popStep (reg : Registry) (framework exL : Option String) (st : BuildState)
    (i : Nat) : BuildState :=
  stepNode reg framework exL { st with stack := st.stack.eraseIdx i }
    (st.stack.getD i ("", ""))

/-- Run the generalised machine with an arbitrary pop-order oracle: at each
iteration the oracle's head, reduced modulo the stack length, chooses which
pending frame to pop. -/
def runND (reg : Registry) (framework exL : Option String) :
    List Nat → Nat → BuildState → BuildState
  | _, 0, st => st
  | oracle, fuel + 1, st =>
    match st.stack with
    | [] => st
    | _ :: _ =>
      runND reg framework exL oracle.tail fuel
        (popStep reg framework exL st (oracle.headD 0 % st.stack.length))

/-- All states reachable by the generalised machine in at most `fuel`
iterations, one branch per possible pop position. -/
def runsND (reg : Registry) (framework exL : Option String) :
    Nat → BuildState → List BuildState
  | 0, st => [st]
  | fuel + 1, st =>
    match st.stack with
    | [] => [st]
    | _ :: _ =>
      ((List.range st.stack.length).map
        (fun i => runsND reg framework exL fuel (popStep reg framework exL st i))).flatten

/-- A synthetic registration payload: one dependency group with no declared
target framework and one entry per dependency id. -/
def simpleGroups (ids : List String) : List DepGroup :=
  [⟨none, ids.map (fun i => ⟨some i, some "[1.0.0, )"⟩)⟩]

/-- A synthetic registry: packages are keyed by lowercase id, each has the
single version "1.0.0" and the given dependency ids. -/
def simpleReg (pkgs : List (String × List String)) : Registry where
  resources := [("SearchQueryService", "https://s"), ("RegistrationsBaseUrl", "https://r/")]
  rawVersions := fun p =>
    match pkgs.find? (fun kv => kv.1 == p) with
    | some _ => Except.ok ["1.0.0"]
    | none => Except.ok []
  rawDeps := fun p v =>
    match pkgs.find? (fun kv => kv.1 == p) with
    | some kv => if v == "1.0.0" then Except.ok (simpleGroups kv.2) else Except.error ()
    | none => Except.error ()
  rawDependents := fun _ _ _ => Except.ok []

/-- The 4-node chain A→B→C→D. -/
def chainReg : Registry := simpleReg [("a", ["B"]), ("b", ["C"]), ("c", ["D"]), ("d", [])]

/-- The diamond A→B, A→C, B→D, C→D with D dependency-free. -/
def diamondReg : Registry :=
  simpleReg [("a", ["B", "C"]), ("b", ["D"]), ("c", ["D"]), ("d", [])]

/-- The 2-cycle A→B→A. -/
def cycReg : Registry := simpleReg [("a", ["B"]), ("b", ["A"])]

/-- The chain A→B→C used by the exclusion-filter claim. -/
def exclReg : Registry := simpleReg [("a", ["B"]), ("b", ["C"]), ("c", [])]

/-- A registry where the same package is declared as "LibX" by A and as
"libx" by C; A's list is processed first, so "LibX" is the first-seen
spelling, but LIFO popping expands the later spelling first. -/
def caseReg : Registry := simpleReg [("a", ["LibX", "C"]), ("c", ["libx"]), ("libx", [])]

/-- Two parents declaring the same dependency under different casings. -/
def case2Reg : Registry :=
  simpleReg [("a", ["B", "C"]), ("b", ["Lib.X"]), ("c", ["lib.x"]), ("lib.x", [])]

/-- A registry whose service index lacks the RegistrationsBaseUrl resource:
every registration lookup hits the configuration `ValueError`. -/
def noResReg : Registry where
  resources := [("SearchQueryService", "https://s")]
  rawVersions := fun _ => Except.ok []
  rawDeps := fun _ _ => Except.ok []
  rawDependents := fun _ _ _ => Except.ok []

/-- Rewrite every declared version range in the registry's registration data,
leaving ids and target frameworks alone.  Used to state that the builder
never consults the declared range. -/
def mapRanges (g : Option String → Option String) (reg : Registry) : Registry :=
  { reg with rawDeps := fun p v =>
      match reg.rawDeps p v with
      | Except.error e => Except.error e
      | Except.ok gs => Except.ok (gs.map (fun gr =>
          ⟨gr.targetFramework, gr.dependencies.map (fun d => ⟨d.id, g d.range⟩)⟩)) }

/-- The value set recorded for key `k` (empty when `k` is not a key). -/
def edgesOf (g : List (String × List String)) (k : String) : List String :=
  ((g.find? (fun kv => kv.1 == k)).map Prod.snd).getD []

/-- The display keys of an adjacency map, in insertion order. -/
def keysOf (g : List (String × List String)) : List String := g.map Prod.fst

/-- Total number of recorded edges of an adjacency map. -/
def edgeTotal (g : List (String × List String)) : Nat :=
  (g.map (fun kv => kv.2.length)).sum

/-- The graph of an optional build result (empty when the fuel ran out). -/
def graphOf (r : Option BuildState) : List (String × List String) :=
  (r.map BuildState.graph).getD []

/-- The seen log of an optional build result. -/
def seenOf (r : Option BuildState) : List String :=
  (r.map BuildState.seen).getD []

/-- The fetch log of an optional build result. -/
def fetchedOf (r : Option BuildState) : List (String × String) :=
  (r.map BuildState.fetched).getD []

/-- The diamond property of claim C2, decidably: the run is complete, the
edges B→D and C→D are each recorded exactly once, and D is a key exactly
once, with an empty value set. -/
def diamondOK (st : BuildState) : Bool :=
  st.stack.isEmpty &&
  ((edgesOf st.graph "B").count "D" == 1) &&
  ((edgesOf st.graph "C").count "D" == 1) &&
  (st.graph.countP (fun kv => kv.1 == "D") == 1) &&
  decide (("D", ([] : List String)) ∈ st.graph)

/-- Every entry of the push log carries a version that heads the
descending-sorted version list the Registry Client returned for its id. -/
def PushedOK (reg : Registry) (l : List (String × String)) : Prop :=
  ∀ p ∈ l, ∃ rest, get_package_versions reg p.1 = Except.ok (p.2 :: rest)

/-- Lawfulness of a Python-style three-way comparison: reflexivity,
antisymmetry of the swap, transitivity of strict ordering, and congruence of
comparison-equality.  Enough to recover that the head of a descending
insertion sort is a maximum. -/
structure IsCmp (c : α → α → Ordering) : Prop where
  rfl_eq : ∀ a, c a a = Ordering.eq
  swap_eq : ∀ a b, (c a b).swap = c b a
  lt_trans : ∀ ⦃a b d⦄, c a b = Ordering.lt → c b d = Ordering.lt → c a d = Ordering.lt
  eq_congr : ∀ ⦃a b⦄, c a b = Ordering.eq → ∀ d, c a d = c b d

/-- Sequential composition of comparisons, as Python compares tuples
componentwise. -/
def cmpThen (c d : α → α → Ordering) : α → α → Ordering := fun a b =>
  match c a b with
  | Ordering.eq => d a b
  | o => o

/-- Comparison pulled back along a projection. -/
def pullCmp (f : β → α) (c : α → α → Ordering) : β → β → Ordering :=
  fun x y => c (f x) (f y)

/-- Two flattened dependencies agreeing on everything the traversal ever
reads (the builder never consults `range`). -/
def depRel (d e : Dep) : Prop := d.id = e.id ∧ d.framework = e.framework

/-- The key-casing invariant of the forward builder: the display keys of the
adjacency map are, in order, exactly the spellings under which nodes were
expanded (the fetch log), and every key has already been marked visited. -/
def KeysInv (st : BuildState) : Prop :=
  st.graph.map Prod.fst = st.fetched.map Prod.fst ∧
  ∀ k ∈ st.graph.map Prod.fst, lowerStr k ∈ st.visited

example : version_to_key "1.0.0" = ⟨[1, 0, 0], none, []⟩ := by decide
example : version_to_key "1.0.0-alpha.2" =
    ⟨[1, 0, 0], some [PreSeg.alpha "alpha", PreSeg.num 2], []⟩ := by decide
example : version_to_key "abc" = lowestKey := by decide
example : version_to_key "1.0.0+b.7" = ⟨[1, 0, 0], none, ["b", "7"]⟩ := by decide
example : vkCmp (version_to_key "2.0.0") (version_to_key "1.9.9") = Ordering.gt := by decide

/-- Every oracle-driven run is among the enumerated runs. -/
theorem runND_mem_runsND (reg : Registry) (framework exL : Option String) :
    ∀ (fuel : Nat) (oracle : List Nat) (st : BuildState),
      runND reg framework exL oracle fuel st ∈ runsND reg framework exL fuel st := by
  intro fuel
  induction fuel with
  | zero => intro oracle st; simp [runND, runsND]
  | succ fuel ih =>
    intro oracle st
    cases h : st.stack with
    | nil => simp [runND, runsND, h]
    | cons a t =>
      simp only [runND, runsND, h]
      apply List.mem_flatten.2
      refine ⟨runsND reg framework exL fuel
        (popStep reg framework exL st (oracle.headD 0 % (a :: t).length)), ?_, ?_⟩
      · apply List.mem_map.2
        refine ⟨oracle.headD 0 % (a :: t).length, ?_, rfl⟩
        apply List.mem_range.2
        exact Nat.mod_lt _ (Nat.succ_pos _)
      · exact ih oracle.tail _

example : build_dependency_graph_dfs chainReg "A" "1.0.0" none none 10 =
    some ⟨[], [("A", ["B"]), ("B", ["C"]), ("C", ["D"]), ("D", [])],
      ["a", "b", "c", "d"],
      [("A", "1.0.0"), ("B", "1.0.0"), ("C", "1.0.0"), ("D", "1.0.0")],
      [("B", "1.0.0"), ("C", "1.0.0"), ("D", "1.0.0")],
      ["A", "B", "C", "D"], []⟩ := by decide

theorem IsCmp.eq_congr_r {c : α → α → Ordering} (h : IsCmp c) ⦃a b : α⦄
    (hab : c a b = Ordering.eq) (d : α) : c d a = c d b := by
  calc c d a = (c a d).swap := (h.swap_eq a d).symm
    _ = (c b d).swap := by rw [h.eq_congr hab d]
    _ = c d b := h.swap_eq b d

theorem IsCmp.gt_trans {c : α → α → Ordering} (h : IsCmp c) ⦃a b d : α⦄
    (h1 : c a b = Ordering.gt) (h2 : c b d = Ordering.gt) : c a d = Ordering.gt := by
  have g1 : c b a = Ordering.lt := by rw [← h.swap_eq a b, h1]; rfl
  have g2 : c d b = Ordering.lt := by rw [← h.swap_eq b d, h2]; rfl
  have g3 : c d a = Ordering.lt := h.lt_trans g2 g1
  rw [← h.swap_eq d a, g3]; rfl

theorem IsCmp.ge_trans {c : α → α → Ordering} (h : IsCmp c) ⦃a b d : α⦄
    (h1 : c a b ≠ Ordering.lt) (h2 : c b d ≠ Ordering.lt) : c a d ≠ Ordering.lt := by
  cases hab : c a b with
  | lt => exact absurd hab h1
  | eq => rw [h.eq_congr hab d]; exact h2
  | gt =>
    cases hbd : c b d with
    | lt => exact absurd hbd h2
    | eq => rw [← h.eq_congr_r hbd a, hab]; simp
    | gt => rw [h.gt_trans hab hbd]; simp

theorem natCmp_eq_eq {a b : Nat} (h : natCmp a b = Ordering.eq) : a = b := by
  unfold natCmp at h
  by_cases h1 : a < b
  · simp [h1] at h
  · by_cases h2 : b < a
    · simp [h1, h2] at h
    · omega

theorem natCmp_isCmp : IsCmp natCmp where
  rfl_eq a := by simp [natCmp]
  swap_eq a b := by
    unfold natCmp
    rcases Nat.lt_trichotomy a b with h | h | h
    · simp [h, Nat.lt_asymm h, Ordering.swap]
    · subst h; simp [Ordering.swap]
    · simp [h, Nat.lt_asymm h, Ordering.swap]
  lt_trans := by
    intro a b d h1 h2
    unfold natCmp at *
    split_ifs at * <;> first | omega | simp_all
  eq_congr := by
    intro a b hab d
    rw [natCmp_eq_eq hab]

theorem charCmp_isCmp : IsCmp charCmp where
  rfl_eq a := natCmp_isCmp.rfl_eq a.toNat
  swap_eq a b := natCmp_isCmp.swap_eq a.toNat b.toNat
  lt_trans := by intro a b d h1 h2; exact natCmp_isCmp.lt_trans h1 h2
  eq_congr := by intro a b h d; exact natCmp_isCmp.eq_congr h d.toNat

theorem lexCmp_isCmp {c : α → α → Ordering} (hc : IsCmp c) : IsCmp (lexCmp c) where
  rfl_eq := by
    intro l
    induction l with
    | nil => rfl
    | cons a t ih => simp [lexCmp, hc.rfl_eq, ih]
  swap_eq := by
    intro l
    induction l with
    | nil => intro m; cases m <;> rfl
    | cons a t ih =>
      intro m
      cases m with
      | nil => rfl
      | cons b s =>
        simp only [lexCmp]
        cases hab : c a b with
        | eq =>
          have hba : c b a = Ordering.eq := by rw [← hc.swap_eq a b, hab]; rfl
          rw [hba]
          exact ih s
        | lt =>
          have hba : c b a = Ordering.gt := by rw [← hc.swap_eq a b, hab]; rfl
          rw [hba]; rfl
        | gt =>
          have hba : c b a = Ordering.lt := by rw [← hc.swap_eq a b, hab]; rfl
          rw [hba]; rfl
  lt_trans := by
    intro l
    induction l with
    | nil =>
      intro m n h1 h2
      cases m with
      | nil => cases h1
      | cons b s =>
        cases n with
        | nil => cases h2
        | cons d u => rfl
    | cons a t ih =>
      intro m n h1 h2
      cases m with
      | nil => cases h1
      | cons b s =>
        cases n with
        | nil => cases h2
        | cons d u =>
          simp only [lexCmp] at h1 h2 ⊢
          cases hab : c a b with
          | lt =>
            cases hbd : c b d with
            | lt => rw [hc.lt_trans hab hbd]
            | eq =>
              have had : c a d = Ordering.lt := by rw [← hc.eq_congr_r hbd a]; exact hab
              rw [had]
            | gt => rw [hbd] at h2; cases h2
          | eq =>
            rw [hab] at h1
            cases hbd : c b d with
            | lt =>
              have had : c a d = Ordering.lt := by rw [hc.eq_congr hab d]; exact hbd
              rw [had]
            | eq =>
              have had : c a d = Ordering.eq := by rw [hc.eq_congr hab d]; exact hbd
              rw [hbd] at h2
              rw [had]
              exact ih h1 h2
            | gt => rw [hbd] at h2; cases h2
          | gt => rw [hab] at h1; cases h1
  eq_congr := by
    intro l
    induction l with
    | nil =>
      intro m hm n
      cases m with
      | nil => rfl
      | cons b s => cases hm
    | cons a t ih =>
      intro m hm n
      cases m with
      | nil => cases hm
      | cons b s =>
        simp only [lexCmp] at hm
        cases hab : c a b with
        | lt => rw [hab] at hm; cases hm
        | gt => rw [hab] at hm; cases hm
        | eq =>
          rw [hab] at hm
          cases n with
          | nil => rfl
          | cons d u =>
            simp only [lexCmp]
            rw [hc.eq_congr hab d]
            cases hbd : c b d with
            | eq => exact ih hm u
            | lt => rfl
            | gt => rfl

theorem strCmp_isCmp : IsCmp strCmp where
  rfl_eq a := (lexCmp_isCmp charCmp_isCmp).rfl_eq a.data
  swap_eq a b := (lexCmp_isCmp charCmp_isCmp).swap_eq a.data b.data
  lt_trans := by
    intro a b d h1 h2
    exact (lexCmp_isCmp charCmp_isCmp).lt_trans h1 h2
  eq_congr := by
    intro a b h d
    exact (lexCmp_isCmp charCmp_isCmp).eq_congr h d.data

theorem preSegCmp_isCmp : IsCmp preSegCmp where
  rfl_eq a := by
    cases a with
    | num n => exact natCmp_isCmp.rfl_eq n
    | alpha s => exact strCmp_isCmp.rfl_eq s
  swap_eq a b := by
    cases a <;> cases b <;>
      first
        | rfl
        | exact natCmp_isCmp.swap_eq _ _
        | exact strCmp_isCmp.swap_eq _ _
  lt_trans := by
    intro a b d h1 h2
    cases a with
    | num n1 =>
      cases b with
      | num n2 =>
        cases d with
        | num n3 => exact natCmp_isCmp.lt_trans h1 h2
        | alpha u => rfl
      | alpha s2 =>
        cases d with
        | num n3 => cases h2
        | alpha u => rfl
    | alpha s1 =>
      cases b with
      | num n2 => cases h1
      | alpha s2 =>
        cases d with
        | num n3 => cases h2
        | alpha u => exact strCmp_isCmp.lt_trans h1 h2
  eq_congr := by
    intro a b h d
    cases a with
    | num n =>
      cases b with
      | num m => rw [natCmp_eq_eq h]
      | alpha s => cases h
    | alpha s =>
      cases b with
      | num m => cases h
      | alpha t =>
        cases d with
        | num k => rfl
        | alpha u => exact strCmp_isCmp.eq_congr h u

theorem preCmp_isCmp : IsCmp preCmp where
  rfl_eq a := by
    cases a with
    | none => rfl
    | some l => exact (lexCmp_isCmp preSegCmp_isCmp).rfl_eq l
  swap_eq a b := by
    cases a <;> cases b <;>
      first
        | rfl
        | exact (lexCmp_isCmp preSegCmp_isCmp).swap_eq _ _
  lt_trans := by
    intro a b d h1 h2
    cases a with
    | none =>
      cases b with
      | none => cases h1
      | some l2 => cases h1
    | some l1 =>
      cases b with
      | none =>
        cases d with
        | none => rfl
        | some l3 => cases h2
      | some l2 =>
        cases d with
        | none => rfl
        | some l3 => exact (lexCmp_isCmp preSegCmp_isCmp).lt_trans h1 h2
  eq_congr := by
    intro a b h d
    cases a with
    | none =>
      cases b with
      | none => rfl
      | some l => cases h
    | some l =>
      cases b with
      | none => cases h
      | some m =>
        cases d with
        | none => rfl
        | some u => exact (lexCmp_isCmp preSegCmp_isCmp).eq_congr h u

theorem cmpThen_isCmp {c d : α → α → Ordering} (hc : IsCmp c) (hd : IsCmp d) :
    IsCmp (cmpThen c d) where
  rfl_eq a := by simp [cmpThen, hc.rfl_eq, hd.rfl_eq]
  swap_eq a b := by
    unfold cmpThen
    cases h : c a b with
    | lt =>
      have h2 : c b a = Ordering.gt := by rw [← hc.swap_eq a b, h]; rfl
      rw [h2]; rfl
    | gt =>
      have h2 : c b a = Ordering.lt := by rw [← hc.swap_eq a b, h]; rfl
      rw [h2]; rfl
    | eq =>
      have h2 : c b a = Ordering.eq := by rw [← hc.swap_eq a b, h]; rfl
      rw [h2]
      exact hd.swap_eq a b
  lt_trans := by
    intro a b e h1 h2
    unfold cmpThen at *
    cases hab : c a b with
    | lt =>
      cases hbe : c b e with
      | lt => rw [hc.lt_trans hab hbe]
      | eq =>
        have hae : c a e = Ordering.lt := by rw [← hc.eq_congr_r hbe a]; exact hab
        rw [hae]
      | gt => rw [hbe] at h2; cases h2
    | eq =>
      rw [hab] at h1
      cases hbe : c b e with
      | lt =>
        have hae : c a e = Ordering.lt := by rw [hc.eq_congr hab e]; exact hbe
        rw [hae]
      | eq =>
        rw [hbe] at h2
        have hae : c a e = Ordering.eq := by rw [hc.eq_congr hab e]; exact hbe
        rw [hae]
        exact hd.lt_trans h1 h2
      | gt => rw [hbe] at h2; cases h2
    | gt => rw [hab] at h1; cases h1
  eq_congr := by
    intro a b hab e
    unfold cmpThen at *
    cases h : c a b with
    | lt => rw [h] at hab; cases hab
    | gt => rw [h] at hab; cases hab
    | eq =>
      rw [h] at hab
      rw [hc.eq_congr h e, hd.eq_congr hab e]

theorem pullCmp_isCmp {c : α → α → Ordering} (hc : IsCmp c) (f : β → α) :
    IsCmp (pullCmp f c) where
  rfl_eq a := hc.rfl_eq (f a)
  swap_eq a b := hc.swap_eq (f a) (f b)
  lt_trans := by intro a b d h1 h2; exact hc.lt_trans h1 h2
  eq_congr := by intro a b h d; exact hc.eq_congr h (f d)

/-- `vkCmp` is the componentwise chain of the three tuple comparisons. -/
theorem vkCmp_eq_chain :
    vkCmp = cmpThen (pullCmp VersionKey.core (lexCmp natCmp))
      (cmpThen (pullCmp VersionKey.pre preCmp)
        (pullCmp VersionKey.build (lexCmp strCmp))) := rfl

theorem vkCmp_isCmp : IsCmp vkCmp := by
  rw [vkCmp_eq_chain]
  exact cmpThen_isCmp (pullCmp_isCmp (lexCmp_isCmp natCmp_isCmp) _)
    (cmpThen_isCmp (pullCmp_isCmp preCmp_isCmp _)
      (pullCmp_isCmp (lexCmp_isCmp strCmp_isCmp) _))

/-- The comparison underlying `keyGe`, pulled back along `version_to_key`. -/
theorem verCmp_isCmp : IsCmp (pullCmp version_to_key vkCmp) :=
  pullCmp_isCmp vkCmp_isCmp version_to_key

theorem keyGe_total : IsTotal String keyGe where
  total a b := by
    unfold keyGe
    cases h : vkCmp (version_to_key a) (version_to_key b) with
    | lt =>
      right
      have h2 : vkCmp (version_to_key b) (version_to_key a) = Ordering.gt := by
        rw [← vkCmp_isCmp.swap_eq, h]; rfl
      rw [h2]; simp
    | eq => left; simp [h]
    | gt => left; simp [h]

theorem keyGe_trans : IsTrans String keyGe where
  trans _ _ _ h1 h2 := verCmp_isCmp.ge_trans h1 h2

theorem sortVersionsDesc_sorted (l : List String) :
    List.Sorted keyGe (sortVersionsDesc l) := by
  haveI := keyGe_total
  haveI := keyGe_trans
  exact List.sorted_insertionSort keyGe l

theorem sortVersionsDesc_perm (l : List String) :
    List.Perm (sortVersionsDesc l) l :=
  List.perm_insertionSort keyGe l

theorem mem_dedupAux : ∀ (l seenIds : List String) (x : String),
    x ∈ l → x ∉ seenIds → x ∈ dedupAux l seenIds := by
  intro l
  induction l with
  | nil => intro seenIds x hx; cases hx
  | cons v vs ih =>
    intro seenIds x hx hns
    by_cases hv : seenIds.contains v
    · have hvm : v ∈ seenIds := by simpa using hv
      simp only [dedupAux, hv, if_pos]
      rcases List.mem_cons.1 hx with rfl | hx2
      · exact absurd hvm hns
      · exact ih seenIds x hx2 hns
    · simp only [dedupAux, hv, if_neg, Bool.false_eq_true, not_false_eq_true]
      rcases List.mem_cons.1 hx with rfl | hx2
      · exact List.mem_cons_self x _
      · by_cases hxv : x = v
        · subst hxv; exact List.mem_cons_self x _
        · refine List.mem_cons_of_mem v (ih (v :: seenIds) x hx2 ?_)
          intro hc
          rcases List.mem_cons.1 hc with rfl | hc2
          · exact hxv rfl
          · exact hns hc2

theorem mem_dedupFirst {l : List String} {x : String} (h : x ∈ l) :
    x ∈ dedupFirst l :=
  mem_dedupAux l [] x h (by simp)

/-- The head of the list returned by `get_package_versions` is a maximum of
that list under the `version_to_key` ordering. -/
theorem gpv_head_max {reg : Registry} {pid v : String} {rest : List String}
    (h : get_package_versions reg pid = Except.ok (v :: rest)) :
    ∀ w ∈ v :: rest, vkCmp (version_to_key w) (version_to_key v) ≠ Ordering.gt := by
  unfold get_package_versions at h
  cases hr : find_resource_url reg.resources "RegistrationsBaseUrl" with
  | error e => rw [hr] at h; cases h
  | ok u =>
    rw [hr] at h
    cases hraw : reg.rawVersions (lowerStr pid) with
    | error e => rw [hraw] at h; cases h
    | ok vs =>
      rw [hraw] at h
      have heq : sortVersionsDesc (dedupFirst vs) = v :: rest := by
        simpa using h
      have hs := sortVersionsDesc_sorted (dedupFirst vs)
      rw [heq] at hs
      intro w hw
      rcases List.mem_cons.1 hw with rfl | hw2
      · rw [vkCmp_isCmp.rfl_eq]; simp
      · have hge : keyGe v w := List.rel_of_sorted_cons hs w hw2
        intro hgt
        apply hge
        rw [← vkCmp_isCmp.swap_eq (version_to_key w) (version_to_key v), hgt]
        rfl

/-- Every version string the registry lists appears in the list returned by
`get_package_versions`. -/
theorem gpv_complete {reg : Registry} {pid v : String} {rest raws : List String}
    (hraw : reg.rawVersions (lowerStr pid) = Except.ok raws)
    (h : get_package_versions reg pid = Except.ok (v :: rest)) :
    ∀ w ∈ raws, w ∈ v :: rest := by
  unfold get_package_versions at h
  cases hr : find_resource_url reg.resources "RegistrationsBaseUrl" with
  | error e => rw [hr] at h; cases h
  | ok u =>
    rw [hr, hraw] at h
    have heq : sortVersionsDesc (dedupFirst raws) = v :: rest := by
      simpa using h
    intro w hw
    rw [← heq]
    exact (sortVersionsDesc_perm (dedupFirst raws)).mem_iff.2 (mem_dedupFirst hw)

theorem processDeps_pushed (reg : Registry) (exL : Option String) (curId : String) :
    ∀ (ds : List Dep) (st : BuildState),
      PushedOK reg st.pushed → PushedOK reg (processDeps reg exL curId ds st).pushed := by
  intro ds
  induction ds with
  | nil => intro st h; exact h
  | cons d rest ih =>
    intro st h
    simp only [processDeps]
    split
    · exact ih _ h
    · split
      · exact ih _ h
      · cases hv : get_package_versions reg d.id with
        | error e => exact h
        | ok vs =>
          cases vs with
          | nil => exact ih _ h
          | cons v vt =>
            apply ih
            intro p hp
            rcases List.mem_append.1 hp with hp | hp
            · exact h p hp
            · have hpd : p = (d.id, v) := by simpa using hp
              subst hpd
              exact ⟨vt, hv⟩

theorem stepNode_pushed (reg : Registry) (fw exL : Option String) (st : BuildState)
    (cur : String × String) (h : PushedOK reg st.pushed) :
    PushedOK reg (stepNode reg fw exL st cur).pushed := by
  unfold stepNode
  split
  · exact h
  · cases hd : get_package_dependencies reg cur.1 cur.2 with
    | error e => exact h
    | ok direct => exact processDeps_pushed reg exL cur.1 _ _ h

theorem buildLoop_pushed (reg : Registry) (fw exL : Option String) :
    ∀ (fuel : Nat) (st st' : BuildState),
      buildLoop reg fw exL fuel st = some st' → PushedOK reg st.pushed →
      PushedOK reg st'.pushed := by
  intro fuel
  induction fuel with
  | zero =>
    intro st st' hb h
    cases hs : st.stack with
    | nil =>
      simp only [buildLoop, hs, Option.some.injEq] at hb
      exact hb ▸ h
    | cons a t =>
      simp only [buildLoop, hs] at hb
      cases hb
  | succ fuel ih =>
    intro st st' hb h
    cases hs : st.stack with
    | nil =>
      simp only [buildLoop, hs, Option.some.injEq] at hb
      exact hb ▸ h
    | cons cur restS =>
      simp only [buildLoop, hs] at hb
      exact ih _ _ hb (stepNode_pushed reg fw exL _ cur h)

/-- Every dependency push of a completed forward build carries the head of
the registry's descending-sorted version list for that id. -/
theorem build_pushed_latest (reg : Registry) (root rv : String)
    (fw ex : Option String) (fuel : Nat) (st : BuildState)
    (hb : build_dependency_graph_dfs reg root rv fw ex fuel = some st) :
    PushedOK reg st.pushed := by
  have hinit : ∀ r0 v0, PushedOK reg (initState r0 v0).pushed := by
    intro r0 v0 p hp
    cases hp
  cases ex with
  | none =>
    simp only [build_dependency_graph_dfs] at hb
    exact buildLoop_pushed reg fw none fuel _ st hb (hinit root rv)
  | some s =>
    simp only [build_dependency_graph_dfs] at hb
    by_cases hse : s = ""
    · rw [if_pos hse] at hb
      exact buildLoop_pushed reg fw none fuel _ st hb (hinit root rv)
    · rw [if_neg hse] at hb
      by_cases hin : strIn (lowerStr s) (lowerStr root)
      · rw [if_pos hin] at hb
        have hbe : st = emptyBuildState := by
          simpa using hb.symm
        subst hbe
        intro p hp
        cases hp
      · rw [if_neg hin] at hb
        exact buildLoop_pushed reg fw (some (lowerStr s)) fuel _ st hb (hinit root rv)

theorem flattenGroups_mapRanges (g : Option String → Option String) :
    ∀ gs : List DepGroup,
      List.Forall₂ depRel
        (flattenGroups (gs.map (fun gr =>
          ⟨gr.targetFramework, gr.dependencies.map (fun d => ⟨d.id, g d.range⟩)⟩)))
        (flattenGroups gs) := by
  intro gs
  induction gs with
  | nil => exact List.Forall₂.nil
  | cons gr grs ih =>
    simp only [List.map_cons, flattenGroups]
    apply List.rel_append
    · induction gr.dependencies with
      | nil => exact List.Forall₂.nil
      | cons d ds ihd =>
        simp only [List.map_cons, List.filterMap_cons]
        cases d.id with
        | none => exact ihd
        | some i =>
          by_cases hi : i = ""
          · simp only [hi, if_pos]
            exact ihd
          · simp only [if_neg hi]
            exact List.Forall₂.cons ⟨rfl, rfl⟩ ihd
    · exact ih

theorem processDeps_mapRanges_congr (g : Option String → Option String)
    (reg : Registry) (exL : Option String) (curId : String) :
    ∀ {ds es : List Dep}, List.Forall₂ depRel ds es →
      ∀ st, processDeps (mapRanges g reg) exL curId ds st =
        processDeps reg exL curId es st := by
  intro ds es h
  induction h with
  | nil => intro st; rfl
  | @cons d e ds2 es2 hde hrest ih =>
    intro st
    obtain ⟨hid, hfw⟩ := hde
    have hv : get_package_versions (mapRanges g reg) e.id =
        get_package_versions reg e.id := rfl
    simp only [processDeps, hid, hv]
    split
    · exact ih _
    · split
      · exact ih _
      · cases get_package_versions reg e.id with
        | error e0 => rfl
        | ok vs =>
          cases vs with
          | nil => exact ih _
          | cons v vt => exact ih _

theorem filter_fwKeep_congr (f : String) :
    ∀ {ds es : List Dep}, List.Forall₂ depRel ds es →
      List.Forall₂ depRel (ds.filter (fwKeep f)) (es.filter (fwKeep f)) := by
  intro ds es h
  induction h with
  | nil => exact List.Forall₂.nil
  | @cons d e ds2 es2 hde hrest ih =>
    obtain ⟨hid, hfw⟩ := hde
    have hkeq : fwKeep f d = fwKeep f e := by unfold fwKeep; rw [hfw]
    simp only [List.filter_cons, hkeq]
    cases fwKeep f e with
    | false => exact ih
    | true => exact List.Forall₂.cons ⟨hid, hfw⟩ ih

theorem get_deps_mapRanges (g : Option String → Option String) (reg : Registry)
    (pid ver : String) :
    (∃ e, get_package_dependencies (mapRanges g reg) pid ver = Except.error e ∧
          get_package_dependencies reg pid ver = Except.error e) ∨
    (∃ l l', get_package_dependencies (mapRanges g reg) pid ver = Except.ok l ∧
             get_package_dependencies reg pid ver = Except.ok l' ∧
             List.Forall₂ depRel l l') := by
  unfold get_package_dependencies
  have hres : (mapRanges g reg).resources = reg.resources := rfl
  rw [hres]
  cases hr : find_resource_url reg.resources "RegistrationsBaseUrl" with
  | error e => left; exact ⟨e, rfl, rfl⟩
  | ok u =>
    have hrd : (mapRanges g reg).rawDeps (lowerStr pid) (lowerStr ver) =
        match reg.rawDeps (lowerStr pid) (lowerStr ver) with
        | Except.error e => Except.error e
        | Except.ok gs => Except.ok (gs.map (fun gr =>
            ⟨gr.targetFramework, gr.dependencies.map (fun d => ⟨d.id, g d.range⟩)⟩)) := rfl
    rw [hrd]
    cases hd : reg.rawDeps (lowerStr pid) (lowerStr ver) with
    | error e => right; exact ⟨[], [], rfl, rfl, List.Forall₂.nil⟩
    | ok gs => right; exact ⟨_, _, rfl, rfl, flattenGroups_mapRanges g gs⟩

theorem stepNode_mapRanges (g : Option String → Option String) (reg : Registry)
    (fw exL : Option String) (st : BuildState) (cur : String × String) :
    stepNode (mapRanges g reg) fw exL st cur = stepNode reg fw exL st cur := by
  unfold stepNode
  split
  · rfl
  · rcases get_deps_mapRanges g reg cur.1 cur.2 with ⟨e, h1, h2⟩ | ⟨l, l', h1, h2, hrel⟩
    · rw [h1, h2]
    · rw [h1, h2]
      cases fw with
      | none => exact processDeps_mapRanges_congr g reg exL cur.1 hrel _
      | some f =>
        exact processDeps_mapRanges_congr g reg exL cur.1 (filter_fwKeep_congr f hrel) _

theorem buildLoop_mapRanges (g : Option String → Option String) (reg : Registry)
    (fw exL : Option String) : ∀ (fuel : Nat) (st : BuildState),
    buildLoop (mapRanges g reg) fw exL fuel st = buildLoop reg fw exL fuel st := by
  intro fuel
  induction fuel with
  | zero => intro st; rfl
  | succ fuel ih =>
    intro st
    cases hs : st.stack with
    | nil => simp [buildLoop, hs]
    | cons cur restS =>
      simp only [buildLoop, hs]
      rw [stepNode_mapRanges, ih]

/-- The forward build never depends on the declared version ranges: any
rewriting of the range fields of the registry leaves the build unchanged. -/
theorem build_mapRanges (g : Option String → Option String) (reg : Registry)
    (root rv : String) (fw ex : Option String) (fuel : Nat) :
    build_dependency_graph_dfs (mapRanges g reg) root rv fw ex fuel =
      build_dependency_graph_dfs reg root rv fw ex fuel := by
  cases ex with
  | none =>
    simp only [build_dependency_graph_dfs]
    exact buildLoop_mapRanges g reg fw none fuel _
  | some s =>
    simp only [build_dependency_graph_dfs]
    split_ifs with h1 h2
    · exact buildLoop_mapRanges g reg fw none fuel _
    · rfl
    · exact buildLoop_mapRanges g reg fw (some (lowerStr s)) fuel _

theorem addEdge_keys (g : List (String × List String)) (k v : String) :
    (addEdge g k v).map Prod.fst = g.map Prod.fst := by
  unfold addEdge
  rw [List.map_map]
  apply List.map_congr_left
  intro kv _
  by_cases h : kv.1 == k
  · simp [Function.comp, h]
  · simp [Function.comp, h]

theorem hasKey_iff_mem (g : List (String × List String)) (k : String) :
    hasKey g k = true ↔ k ∈ g.map Prod.fst := by
  unfold hasKey
  rw [List.any_eq_true]
  constructor
  · rintro ⟨kv, hm, hb⟩
    have hk : kv.1 = k := by simpa using hb
    exact hk ▸ List.mem_map_of_mem Prod.fst hm
  · intro hm
    rcases List.mem_map.1 hm with ⟨kv, hm2, rfl⟩
    exact ⟨kv, hm2, by simp⟩

theorem processDeps_keys (reg : Registry) (exL : Option String) (curId : String) :
    ∀ (ds : List Dep) (st : BuildState),
      (processDeps reg exL curId ds st).graph.map Prod.fst = st.graph.map Prod.fst ∧
      (processDeps reg exL curId ds st).fetched = st.fetched ∧
      (processDeps reg exL curId ds st).visited = st.visited := by
  intro ds
  induction ds with
  | nil => intro st; exact ⟨rfl, rfl, rfl⟩
  | cons d rest ih =>
    intro st
    simp only [processDeps]
    split
    · exact ih _
    · split
      · refine ⟨?_, (ih _).2.1, (ih _).2.2⟩
        rw [(ih _).1]
        exact addEdge_keys _ _ _
      · cases get_package_versions reg d.id with
        | error e => exact ⟨addEdge_keys _ _ _, rfl, rfl⟩
        | ok vs =>
          cases vs with
          | nil =>
            refine ⟨?_, (ih _).2.1, (ih _).2.2⟩
            rw [(ih _).1]
            exact addEdge_keys _ _ _
          | cons v vt =>
            refine ⟨?_, (ih _).2.1, (ih _).2.2⟩
            rw [(ih _).1]
            exact addEdge_keys _ _ _

theorem stepNode_keys (reg : Registry) (fw exL : Option String) (st : BuildState)
    (cur : String × String) (h : KeysInv st) : KeysInv (stepNode reg fw exL st cur) := by
  obtain ⟨h1, h2⟩ := h
  unfold stepNode
  split
  · exact ⟨h1, h2⟩
  · rename_i hnv
    have hkey : hasKey st.graph cur.1 = false := by
      by_contra hk
      have hk2 : hasKey st.graph cur.1 = true := by
        cases hb : hasKey st.graph cur.1 with
        | true => rfl
        | false => exact absurd hb hk
      have hmem := (hasKey_iff_mem st.graph cur.1).1 hk2
      have hvis := h2 _ hmem
      apply hnv
      simpa using hvis
    have hg : KeysInv
        ⟨st.stack, st.graph ++ [(cur.1, [])], st.visited ++ [lowerStr cur.1],
          st.fetched ++ [cur], st.pushed, st.seen, st.caught⟩ := by
      constructor
      · simp only [List.map_append, List.map_cons, List.map_nil]
        rw [h1]
      · intro k hk
        simp only [List.map_append, List.map_cons, List.map_nil] at hk
        rcases List.mem_append.1 hk with hk | hk
        · exact List.mem_append_left _ (h2 _ hk)
        · have hkc : k = cur.1 := by simpa using hk
          subst hkc
          exact List.mem_append_right _ (by simp)
    simp only [hkey]
    cases hd : get_package_dependencies reg cur.1 cur.2 with
    | error e => exact ⟨hg.1, hg.2⟩
    | ok direct =>
      constructor
      · rw [(processDeps_keys reg exL cur.1 _ _).1, (processDeps_keys reg exL cur.1 _ _).2.1]
        exact hg.1
      · intro k hk
        rw [(processDeps_keys reg exL cur.1 _ _).1] at hk
        rw [(processDeps_keys reg exL cur.1 _ _).2.2]
        exact hg.2 _ hk

theorem buildLoop_keys (reg : Registry) (fw exL : Option String) :
    ∀ (fuel : Nat) (st st' : BuildState),
      buildLoop reg fw exL fuel st = some st' → KeysInv st → KeysInv st' := by
  intro fuel
  induction fuel with
  | zero =>
    intro st st' hb h
    cases hs : st.stack with
    | nil =>
      simp only [buildLoop, hs, Option.some.injEq] at hb
      exact hb ▸ h
    | cons a t =>
      simp only [buildLoop, hs] at hb
      cases hb
  | succ fuel ih =>
    intro st st' hb h
    cases hs : st.stack with
    | nil =>
      simp only [buildLoop, hs, Option.some.injEq] at hb
      exact hb ▸ h
    | cons cur restS =>
      simp only [buildLoop, hs] at hb
      exact ih _ _ hb (stepNode_keys reg fw exL _ cur ⟨h.1, h.2⟩)

/-- In every completed forward build the adjacency map's display keys are, in
order, exactly the spellings under which the nodes were expanded (the fetch
log); key casing therefore comes from the spelling first popped unvisited,
not from the first-seen spelling. -/
theorem build_keys (reg : Registry) (root rv : String) (fw ex : Option String)
    (fuel : Nat) (st : BuildState)
    (hb : build_dependency_graph_dfs reg root rv fw ex fuel = some st) :
    st.graph.map Prod.fst = st.fetched.map Prod.fst := by
  have hinit : ∀ r0 v0, KeysInv (initState r0 v0) := by
    intro r0 v0
    exact ⟨rfl, by intro k hk; cases hk⟩
  cases ex with
  | none =>
    simp only [build_dependency_graph_dfs] at hb
    exact (buildLoop_keys reg fw none fuel _ st hb (hinit root rv)).1
  | some s =>
    simp only [build_dependency_graph_dfs] at hb
    by_cases hse : s = ""
    · rw [if_pos hse] at hb
      exact (buildLoop_keys reg fw none fuel _ st hb (hinit root rv)).1
    · rw [if_neg hse] at hb
      by_cases hin : strIn (lowerStr s) (lowerStr root)
      · rw [if_pos hin] at hb
        have hbe : st = emptyBuildState := by simpa using hb.symm
        subst hbe
        rfl
      · rw [if_neg hin] at hb
        exact (buildLoop_keys reg fw (some (lowerStr s)) fuel _ st hb (hinit root rv)).1

theorem buildLoop_nil (reg : Registry) (fw exL : Option String) (fuel : Nat)
    (st : BuildState) (h : st.stack = []) : buildLoop reg fw exL fuel st = some st := by
  cases fuel with
  | zero => simp [buildLoop, h]
  | succ f => simp [buildLoop, h]

/-- When service discovery lacks the RegistrationsBaseUrl resource, the
configuration error propagates out of `get_package_dependencies`, but the
traversal loop's blanket handler catches it: the build returns normally with
the root recorded and the error merely logged. -/
theorem build_config_error_swallowed (reg : Registry) (root rv : String)
    (fw : Option String) (fuel : Nat) (e : PyErr)
    (herr : find_resource_url reg.resources "RegistrationsBaseUrl" = Except.error e)
    (hfuel : 1 ≤ fuel) :
    get_package_dependencies reg root rv = Except.error e ∧
    build_dependency_graph_dfs reg root rv fw none fuel =
      some ⟨[], [(root, [])], [lowerStr root], [(root, rv)], [], [root],
        ["error processing " ++ root]⟩ := by
  have hd : get_package_dependencies reg root rv = Except.error e := by
    unfold get_package_dependencies
    rw [herr]
  refine ⟨hd, ?_⟩
  cases fuel with
  | zero => exact (Nat.not_succ_le_zero 0 hfuel).elim
  | succ f =>
    have hstep : stepNode reg fw none ⟨[], [], [], [], [], [root], []⟩ (root, rv) =
        ⟨[], [(root, [])], [lowerStr root], [(root, rv)], [], [root],
          ["error processing " ++ root]⟩ := by
      unfold stepNode
      simp [hd, hasKey]
    simp only [build_dependency_graph_dfs, initState, buildLoop]
    rw [hstep]
    exact buildLoop_nil reg fw none f _ rfl

/-- The root-exclusion short circuit of both builders, for a non-null and
nonempty exclusion substring contained case-insensitively in the root id:
the empty graph is returned with no registry access at all. -/
theorem build_root_excluded (reg : Registry) (root rv s : String)
    (fw : Option String) (fuel maxDeps : Nat) (hne : s ≠ "")
    (hin : strIn (lowerStr s) (lowerStr root) = true) :
    build_dependency_graph_dfs reg root rv fw (some s) fuel = some emptyBuildState ∧
    build_reverse_dependency_graph_dfs reg root (some s) maxDeps fuel = some emptyRevState ∧
    emptyBuildState.graph = [] ∧ emptyBuildState.fetched = [] ∧
    emptyRevState.graph = [] ∧ emptyRevState.fetched = [] := by
  refine ⟨?_, ?_, rfl, rfl, rfl, rfl⟩
  · simp only [build_dependency_graph_dfs]
    rw [if_neg hne, if_pos hin]
  · simp only [build_reverse_dependency_graph_dfs]
    rw [if_neg hne, if_pos hin]

/-- C1 (counterexample): `build_dependency_graph_dfs` takes no maxDepth
parameter, so nothing bounds the depth of the chain A→B→C→D: the build
completes and records 3 edges, not the 2 the claim requires under
maxDepth = 1. -/
theorem C1_counterexample :
    build_dependency_graph_dfs chainReg "A" "1.0.0" none none 10 ≠ none ∧
    edgeTotal (graphOf (build_dependency_graph_dfs chainReg "A" "1.0.0" none none 10)) = 3 ∧
    edgeTotal (graphOf (build_dependency_graph_dfs chainReg "A" "1.0.0" none none 10)) ≠ 2 := by
  refine ⟨by decide, by decide, by decide⟩

/-- C1 (amended): the forward builder accepts no depth bound; traversal is
limited only by the visited set, and on the chain registry A→B→C→D it
expands all four nodes and records exactly the 3 edges A→B, B→C, C→D. -/
theorem C1_amended :
    build_dependency_graph_dfs chainReg "A" "1.0.0" none none 10 =
      some ⟨[], [("A", ["B"]), ("B", ["C"]), ("C", ["D"]), ("D", [])],
        ["a", "b", "c", "d"],
        [("A", "1.0.0"), ("B", "1.0.0"), ("C", "1.0.0"), ("D", "1.0.0")],
        [("B", "1.0.0"), ("C", "1.0.0"), ("D", "1.0.0")],
        ["A", "B", "C", "D"], []⟩ := by decide

/-- C2: on the diamond registry A→B, A→C, B→D, C→D the forward build records
the edges B→D and C→D exactly once each and D as a key with an empty set —
and, because every edge is recorded by the parent before the visited gate or
any push decision, this holds for EVERY stack-pop order of the generalised
machine, not just the source's LIFO order. -/
theorem C2_diamond_no_lost_edges :
    (edgesOf (graphOf (build_dependency_graph_dfs diamondReg "A" "1.0.0" none none 12))
        "B").count "D" = 1 ∧
    (edgesOf (graphOf (build_dependency_graph_dfs diamondReg "A" "1.0.0" none none 12))
        "C").count "D" = 1 ∧
    (graphOf (build_dependency_graph_dfs diamondReg "A" "1.0.0" none none 12)).countP
        (fun kv => kv.1 == "D") = 1 ∧
    ("D", ([] : List String)) ∈
      graphOf (build_dependency_graph_dfs diamondReg "A" "1.0.0" none none 12) ∧
    ∀ oracle : List Nat,
      diamondOK (runND diamondReg none none oracle 12 (initState "A" "1.0.0")) = true := by
  refine ⟨by decide, by decide, by decide, by decide, ?_⟩
  intro oracle
  have hmem := runND_mem_runsND diamondReg none none 12 oracle (initState "A" "1.0.0")
  have hall : ∀ s ∈ runsND diamondReg none none 12 (initState "A" "1.0.0"),
      diamondOK s = true := by decide
  exact hall _ hmem

/-- C3: on the cyclic registry A→B→A the build terminates (the loop reaches
an empty stack within the given fuel), the graph is exactly {A: {B}, B: {A}},
and A is expanded (its dependencies fetched) exactly once. -/
theorem C3_cycle_termination :
    build_dependency_graph_dfs cycReg "A" "1.0.0" none none 10 =
      some ⟨[], [("A", ["B"]), ("B", ["A"])], ["a", "b"],
        [("A", "1.0.0"), ("B", "1.0.0")], [("B", "1.0.0")], ["A", "B", "A"], []⟩ ∧
    (fetchedOf (build_dependency_graph_dfs cycReg "A" "1.0.0" none none 10)).countP
      (fun p => lowerStr p.1 == "a") = 1 := by
  refine ⟨by decide, by decide⟩

/-- C4 (counterexample): with the RegistrationsBaseUrl resource missing from
the service index, the configuration ValueError does propagate out of
`get_package_dependencies`, but the build call does NOT abort: the loop's
blanket handler catches it, logs it, and the build returns a normal graph. -/
theorem C4_counterexample :
    get_package_dependencies noResReg "A" "1.0.0" =
      Except.error (PyErr.valueError "Resource type RegistrationsBaseUrl not found.") ∧
    build_dependency_graph_dfs noResReg "A" "1.0.0" none none 10 =
      some ⟨[], [("A", [])], ["a"], [("A", "1.0.0")], [], ["A"],
        ["error processing A"]⟩ := by
  exact ⟨rfl, by decide⟩

/-- C4 (amended): a missing required resource raises a configuration error
that propagates out of `get_package_dependencies` uncaught; inside the
builder's loop, however, the blanket `except` handler catches it, records the
failure, and the build returns normally with the affected node keeping an
empty dependency set, instead of aborting. -/
theorem C4_amended (reg : Registry) (root rv : String) (fw : Option String)
    (fuel : Nat) (e : PyErr)
    (herr : find_resource_url reg.resources "RegistrationsBaseUrl" = Except.error e)
    (hfuel : 1 ≤ fuel) :
    get_package_dependencies reg root rv = Except.error e ∧
    build_dependency_graph_dfs reg root rv fw none fuel =
      some ⟨[], [(root, [])], [lowerStr root], [(root, rv)], [], [root],
        ["error processing " ++ root]⟩ :=
  build_config_error_swallowed reg root rv fw fuel e herr hfuel

theorem C4_witness :
    get_package_dependencies noResReg "A" "1.0.0" =
      Except.error (PyErr.valueError "Resource type RegistrationsBaseUrl not found.") ∧
    build_dependency_graph_dfs noResReg "A" "1.0.0" none none 10 =
      some ⟨[], [("A", [])], [lowerStr "A"], [("A", "1.0.0")], [], ["A"],
        ["error processing " ++ "A"]⟩ :=
  C4_amended noResReg "A" "1.0.0" none 10
    (PyErr.valueError "Resource type RegistrationsBaseUrl not found.") rfl (by decide)

/-- C5: the version pushed for a dependency is the head of the
descending-sorted list `get_package_versions` returns, which is a maximum
of that list and of every raw version the registry listed, under the
`version_to_key` order; and the declared version range plays no role: the
whole build is invariant under arbitrary rewriting of all range fields. -/
theorem C5_latest_version_no_range :
    (∀ (reg : Registry) (pid v : String) (rest : List String),
        get_package_versions reg pid = Except.ok (v :: rest) →
        ∀ w ∈ v :: rest, vkCmp (version_to_key w) (version_to_key v) ≠ Ordering.gt) ∧
    (∀ (reg : Registry) (pid v : String) (rest raws : List String),
        reg.rawVersions (lowerStr pid) = Except.ok raws →
        get_package_versions reg pid = Except.ok (v :: rest) →
        ∀ w ∈ raws, w ∈ v :: rest) ∧
    (∀ (reg : Registry) (root rv : String) (fw ex : Option String) (fuel : Nat)
        (st : BuildState),
        build_dependency_graph_dfs reg root rv fw ex fuel = some st →
        ∀ p ∈ st.pushed,
          ∃ rest, get_package_versions reg p.1 = Except.ok (p.2 :: rest)) ∧
    (∀ (g : Option String → Option String) (reg : Registry) (root rv : String)
        (fw ex : Option String) (fuel : Nat),
        build_dependency_graph_dfs (mapRanges g reg) root rv fw ex fuel =
          build_dependency_graph_dfs reg root rv fw ex fuel) := by
  refine ⟨?_, ?_, ?_, ?_⟩
  · intro reg pid v rest h w hw
    exact gpv_head_max h w hw
  · intro reg pid v rest raws hraw h w hw
    exact gpv_complete hraw h w hw
  · intro reg root rv fw ex fuel st hb
    exact build_pushed_latest reg root rv fw ex fuel st hb
  · intro g reg root rv fw ex fuel
    exact build_mapRanges g reg root rv fw ex fuel

theorem C5_witness :
    vkCmp (version_to_key "1.0.0") (version_to_key "1.0.0") ≠ Ordering.gt ∧
    "1.0.0" ∈ ["1.0.0"] ∧
    (∃ rest, get_package_versions cycReg "B" = Except.ok ("1.0.0" :: rest)) ∧
    build_dependency_graph_dfs (mapRanges (fun _ => none) cycReg) "A" "1.0.0" none none 10 =
      build_dependency_graph_dfs cycReg "A" "1.0.0" none none 10 := by
  refine ⟨?_, ?_, ?_, ?_⟩
  · exact C5_latest_version_no_range.1 cycReg "B" "1.0.0" [] rfl "1.0.0" (by simp)
  · exact C5_latest_version_no_range.2.1 cycReg "B" "1.0.0" [] ["1.0.0"] rfl rfl
      "1.0.0" (by simp)
  · exact C5_latest_version_no_range.2.2.1 cycReg "A" "1.0.0" none none 10
      ⟨[], [("A", ["B"]), ("B", ["A"])], ["a", "b"],
        [("A", "1.0.0"), ("B", "1.0.0")], [("B", "1.0.0")], ["A", "B", "A"], []⟩
      (by decide) ("B", "1.0.0") (by simp)
  · exact C5_latest_version_no_range.2.2.2 (fun _ => none) cycReg "A" "1.0.0" none none 10

/-- C6 (counterexample): in the registry where A declares "LibX" (processed
first, hence first-seen) and C later declares "libx", the LIFO pop order
expands the later spelling first, so the returned key is "libx", not the
first-seen "LibX": the first entry of the seen log whose lowercase form is
"libx" is "LibX", yet "libx" is the key and "LibX" is not. -/
theorem C6_counterexample :
    ((seenOf (build_dependency_graph_dfs caseReg "A" "1.0.0" none none 10)).filter
        (fun s => lowerStr s == "libx")).head? = some "LibX" ∧
    (keysOf (graphOf (build_dependency_graph_dfs caseReg "A" "1.0.0" none none 10))).contains
        "libx" = true ∧
    (keysOf (graphOf (build_dependency_graph_dfs caseReg "A" "1.0.0" none none 10))).contains
        "LibX" = false ∧
    build_dependency_graph_dfs caseReg "A" "1.0.0" none none 10 ≠ none := by
  refine ⟨by decide, by decide, by decide, by decide⟩

/-- C6 (amended): each key of the returned adjacency map carries the casing
of the spelling under which the node was first expanded (first popped while
unvisited): the key list equals, in order, the fetch-log spellings.  Under
the LIFO stack this can be a later-seen spelling, as the counterexample
shows. -/
theorem C6_amended (reg : Registry) (root rv : String) (fw ex : Option String)
    (fuel : Nat) (st : BuildState)
    (hb : build_dependency_graph_dfs reg root rv fw ex fuel = some st) :
    st.graph.map Prod.fst = st.fetched.map Prod.fst :=
  build_keys reg root rv fw ex fuel st hb

theorem C6_witness :
    (⟨[], [("A", ["LibX", "C"]), ("C", ["libx"]), ("libx", [])],
        ["a", "c", "libx"],
        [("A", "1.0.0"), ("C", "1.0.0"), ("libx", "1.0.0")],
        [("LibX", "1.0.0"), ("C", "1.0.0"), ("libx", "1.0.0")],
        ["A", "LibX", "C", "libx"], []⟩ : BuildState).graph.map Prod.fst =
      (⟨[], [("A", ["LibX", "C"]), ("C", ["libx"]), ("libx", [])],
        ["a", "c", "libx"],
        [("A", "1.0.0"), ("C", "1.0.0"), ("libx", "1.0.0")],
        [("LibX", "1.0.0"), ("C", "1.0.0"), ("libx", "1.0.0")],
        ["A", "LibX", "C", "libx"], []⟩ : BuildState).fetched.map Prod.fst :=
  C6_amended caseReg "A" "1.0.0" none none 10 _ (by decide)

/-- C7 (counterexample): the empty string is a non-null excludeSubstring and
is case-insensitively contained in every root id, yet Python's truthiness
guard `if exclude_substring:` skips the short-circuit: the build proceeds,
performs registry lookups, and returns a non-empty graph. -/
theorem C7_counterexample :
    strIn (lowerStr "") (lowerStr "A") = true ∧
    build_dependency_graph_dfs exclReg "A" "1.0.0" none (some "") 10 ≠
      some emptyBuildState ∧
    graphOf (build_dependency_graph_dfs exclReg "A" "1.0.0" none (some "") 10) =
      [("A", ["B"]), ("B", ["C"]), ("C", [])] ∧
    (fetchedOf (build_dependency_graph_dfs exclReg "A" "1.0.0" none (some "") 10)).length
      = 3 := by
  refine ⟨by decide, by decide, by decide, by decide⟩

/-- C7 (amended): for a non-null AND nonempty excludeSubstring
case-insensitively contained in the root id, both builders return the empty
graph `{}` immediately, with no registry lookup performed. -/
theorem C7_amended (reg : Registry) (root rv s : String) (fw : Option String)
    (fuel maxDeps : Nat) (hne : s ≠ "")
    (hin : strIn (lowerStr s) (lowerStr root) = true) :
    build_dependency_graph_dfs reg root rv fw (some s) fuel = some emptyBuildState ∧
    build_reverse_dependency_graph_dfs reg root (some s) maxDeps fuel = some emptyRevState ∧
    emptyBuildState.graph = [] ∧ emptyBuildState.fetched = [] ∧
    emptyRevState.graph = [] ∧ emptyRevState.fetched = [] :=
  build_root_excluded reg root rv s fw fuel maxDeps hne hin

theorem C7_witness :
    build_dependency_graph_dfs noResReg "AbC" "1.0.0" none (some "b") 5 =
      some emptyBuildState ∧
    build_reverse_dependency_graph_dfs noResReg "AbC" (some "b") 100 5 =
      some emptyRevState ∧
    emptyBuildState.graph = [] ∧ emptyBuildState.fetched = [] ∧
    emptyRevState.graph = [] ∧ emptyRevState.fetched = [] :=
  C7_amended noResReg "AbC" "1.0.0" "b" none 5 100 (by decide) (by decide)

/-- C8: with excludeSubstring "b" matching B on the chain A→B→C, the build
from A yields exactly {A: ∅}: B contributes no edge, is never pushed and
never expanded, and C appears nowhere, neither as a key nor in any value
set. -/
theorem C8_exclusion_filter :
    build_dependency_graph_dfs exclReg "A" "1.0.0" none (some "b") 10 =
      some ⟨[], [("A", [])], ["a"], [("A", "1.0.0")], [], ["A", "B"], []⟩ ∧
    (keysOf (graphOf (build_dependency_graph_dfs exclReg "A" "1.0.0" none (some "b") 10))).contains
        "C" = false ∧
    ((graphOf (build_dependency_graph_dfs exclReg "A" "1.0.0" none (some "b") 10)).map
        Prod.snd).flatten.contains "C" = false ∧
    ((graphOf (build_dependency_graph_dfs exclReg "A" "1.0.0" none (some "b") 10)).map
        Prod.snd).flatten.contains "B" = false := by
  refine ⟨by decide, by decide, by decide, by decide⟩

/-- C9: the spec's precedence examples hold for `version_to_key` under the
tuple order: 1.0.0 > 1.0.0-beta > 1.0.0-alpha.2 > 1.0.0-alpha.1, and
2.0.0 > 1.9.9; a release without a pre-release tag sorts above one with a
tag, and a numeric pre-release component sorts below an alphanumeric one. -/
theorem C9_version_precedence :
    vkCmp (version_to_key "1.0.0") (version_to_key "1.0.0-beta") = Ordering.gt ∧
    vkCmp (version_to_key "1.0.0-beta") (version_to_key "1.0.0-alpha.2") = Ordering.gt ∧
    vkCmp (version_to_key "1.0.0-alpha.2") (version_to_key "1.0.0-alpha.1") = Ordering.gt ∧
    vkCmp (version_to_key "2.0.0") (version_to_key "1.9.9") = Ordering.gt ∧
    preCmp none (some [PreSeg.alpha "beta"]) = Ordering.gt ∧
    preSegCmp (PreSeg.num 2) (PreSeg.alpha "alpha") = Ordering.lt := by
  refine ⟨by decide, by decide, by decide, by decide, by decide, by decide⟩

/-- C10: dependency ids are recorded in value sets with the exact spelling
declared by each parent: B's set holds "Lib.X" and C's set holds "lib.x" as
distinct spellings of the same (case-insensitively identified) package,
which is nevertheless expanded only once. -/
theorem C10_value_casing :
    build_dependency_graph_dfs case2Reg "A" "1.0.0" none none 12 =
      some ⟨[], [("A", ["B", "C"]), ("C", ["lib.x"]), ("lib.x", []), ("B", ["Lib.X"])],
        ["a", "c", "lib.x", "b"],
        [("A", "1.0.0"), ("C", "1.0.0"), ("lib.x", "1.0.0"), ("B", "1.0.0")],
        [("B", "1.0.0"), ("C", "1.0.0"), ("lib.x", "1.0.0")],
        ["A", "B", "C", "lib.x", "Lib.X"], []⟩ ∧
    "Lib.X" ∈ edgesOf
      (graphOf (build_dependency_graph_dfs case2Reg "A" "1.0.0" none none 12)) "B" ∧
    "lib.x" ∈ edgesOf
      (graphOf (build_dependency_graph_dfs case2Reg "A" "1.0.0" none none 12)) "C" ∧
    "Lib.X" ≠ "lib.x" ∧
    (fetchedOf (build_dependency_graph_dfs case2Reg "A" "1.0.0" none none 12)).countP
      (fun p => lowerStr p.1 == "lib.x") = 1 := by
  refine ⟨by decide, by decide, by decide, by decide, by decide⟩

theorem C2_witness :
    diamondOK (runND diamondReg none none [] 12 (initState "A" "1.0.0")) = true :=
  C2_diamond_no_lost_edges.2.2.2.2 []
